import Mathlib

/-!
Shallow embedding of the OLX car-cover scraper core (src/main.py).

Python strings are modelled as `List Char`.  Whitespace and digit classes
are modelled over ASCII, matching the characters occurring in this code
base.  Regular-expression matching (Python `re` with leftmost, greedy,
backtracking semantics) is modelled by a small fuel-based backtracking
engine; the two patterns of `extract_from_page_source` and the character
classes of `extract_price` are translated from the source literally.
-/

/-- Python whitespace class over ASCII: the characters matched by the
regex class backslash-s and stripped by str.strip in this code base. -/
def isWS (c : Char) : Bool :=
  c == ' ' || c == '\t' || c == '\n' || c == '\r' || c == '\x0b' || c == '\x0c'

/-- Model of Python str.lower over the ASCII letters. -/
def lowerStr (s : List Char) : List Char :=
  s.map Char.toLower

/-- Model of Python str.strip (remove whitespace at both ends). -/
def pyStrip (s : List Char) : List Char :=
  (((s.dropWhile isWS).reverse).dropWhile isWS).reverse

/-- Boolean prefix test on character lists. -/
def pfxB : List Char → List Char → Bool
  | [], _ => true
  | _ :: _, [] => false
  | a :: as, b :: bs => a == b && pfxB as bs

/-- Boolean substring test: model of the Python `in` operator on strings. -/
def substrB (needle : List Char) : List Char → Bool
  | [] => pfxB needle []
  | c :: rest => pfxB needle (c :: rest) || substrB needle rest

/-- Sentinel used by the scraper for absent data. -/
def NA : List Char := "N/A".toList

/-- Model of Python `x or "N/A"` on an optional string: `None` and the
empty string are falsy and give the sentinel. -/
def pyOr (x : Option (List Char)) : List Char :=
  match x with
  | none => NA
  | some s => if s.isEmpty then NA else s

/-- Characters removed by `re.sub(r'[₹,\s]', '', ...)` in extract_price. -/
def priceStripClass (c : Char) : Bool :=
  c == '₹' || c == ',' || isWS c

/-- Worker for `digitRuns`: `cur` is the current digit run, reversed. -/
def digitRunsGo (cur : List Char) : List Char → List (List Char)
  | [] => if cur.isEmpty then [] else [cur.reverse]
  | c :: t =>
    if c.isDigit then digitRunsGo (c :: cur) t
    else if cur.isEmpty then digitRunsGo [] t
    else cur.reverse :: digitRunsGo [] t

/-- Maximal digit runs of a character list, in order of appearance: the
model of `re.findall(r'\d+', s)` (each match of the pattern is a maximal
run of digits). -/
def digitRuns (s : List Char) : List (List Char) :=
  digitRunsGo [] s

/-- OLXCarCoverScraper.extract_price (src/main.py lines 50-62): `None` or
empty input gives `None`; otherwise strip the string, delete currency
symbol, commas and whitespace, collect all maximal digit runs and join
them; if there is no digit run, return `None`. -/
def extract_price (price_text : Option (List Char)) : Option (List Char) :=
  match price_text with
  | none => none
  | some s =>
    if s.isEmpty then none
    else
      let price_clean := (pyStrip s).filter (fun c => !priceStripClass c)
      let numbers := digitRuns price_clean
      if numbers.isEmpty then none else some numbers.flatten

/-! Small backtracking regular-expression engine with Python `re`
semantics: leftmost match, greedy repetition, left-preferring
alternation, all realised by backtracking.  Character classes are
Boolean predicates, which also carries the IGNORECASE flag of the two
patterns used by the scraper. -/

/-- Regular expressions over character classes. -/
inductive Re where
  | eps : Re
  | cls : (Char → Bool) → Re
  | seq : Re → Re → Re
  | alt : Re → Re → Re
  | star : Re → Re

/-- Greedy repetition loop: `body` matches one iteration of the starred
sub-expression in continuation-passing style.  Each iteration must
consume at least one character; `fuel` bounds the number of
iterations, so a fuel of `s.length + 1` is always sufficient. -/
def starLoop (body : List Char → (List Char → Option (List Char)) → Option (List Char)) :
    Nat → List Char → (List Char → Option (List Char)) → Option (List Char)
  | 0, s, k => k s
  | fuel + 1, s, k =>
    match body s (fun s1 => if s1.length < s.length then starLoop body fuel s1 k else none) with
    | some r => some r
    | none => k s

/-- Backtracking matcher in continuation-passing style: try to match
`re` at the head of `s` and pass every candidate remainder to `k`, in
Python preference order (greedy, left alternative first). -/
def mre : Re → List Char → (List Char → Option (List Char)) → Option (List Char)
  | .eps, s, k => k s
  | .cls p, s, k =>
    match s with
    | [] => none
    | c :: t => if p c then k t else none
  | .seq a b, s, k => mre a s (fun s1 => mre b s1 k)
  | .alt a b, s, k =>
    match mre a s k with
    | some r => some r
    | none => mre b s k
  | .star r, s, k => starLoop (mre r) (s.length + 1) s k

/-- Length of the match of `re` anchored at the start of `s` (the first
match in backtracking preference order), or `none`. -/
def matchEnd (re : Re) (s : List Char) : Option Nat :=
  match mre re s some with
  | some rest => some (s.length - rest.length)
  | none => none

/-- One regex match: start offset in the scanned string and matched text. -/
structure RMatch where
  start : Nat
  text : List Char
deriving DecidableEq

/-- End offset of a match, as Python match.end(). -/
def RMatch.stop (m : RMatch) : Nat := m.start + m.text.length

/-- Worker for `finditer`: scan the suffix `s` (which begins at absolute
offset `i`), emitting non-overlapping matches left to right and
resuming after each match, as Python re.finditer. -/
def findIterGo (re : Re) : Nat → List Char → Nat → List RMatch
  | 0, _, _ => []
  | fuel + 1, s, i =>
    match matchEnd re s with
    | some n =>
      if n = 0 then
        match s with
        | [] => [⟨i, []⟩]
        | _ :: t => ⟨i, []⟩ :: findIterGo re fuel t (i + 1)
      else
        ⟨i, s.take n⟩ :: findIterGo re fuel (s.drop n) (i + n)
    | none =>
      match s with
      | [] => []
      | _ :: t => findIterGo re fuel t (i + 1)

/-- Model of Python re.finditer: all non-overlapping matches, leftmost
first. -/
def finditer (re : Re) (s : List Char) : List RMatch :=
  findIterGo re (s.length + 1) s 0

/-- Worker for `reSearch`. -/
def reSearchGo (re : Re) : Nat → List Char → Nat → Option RMatch
  | 0, _, _ => none
  | fuel + 1, s, i =>
    match matchEnd re s with
    | some n => some ⟨i, s.take n⟩
    | none =>
      match s with
      | [] => none
      | _ :: t => reSearchGo re fuel t (i + 1)

/-- Model of Python re.search: the leftmost match, or none. -/
def reSearch (re : Re) (s : List Char) : Option RMatch :=
  reSearchGo re (s.length + 1) s 0

/-- Case-insensitive literal character (IGNORECASE model; `c` is given
in lowercase). -/
def litCI (c : Char) : Re := .cls (fun x => x.toLower == c)

/-- Case-insensitive literal word. -/
def litsCI : List Char → Re
  | [] => .eps
  | c :: t => .seq (litCI c) (litsCI t)

/-- Repetition helpers and the character classes of the two patterns. -/
def wsStar : Re := .star (.cls isWS)

/-- One or more repetitions (regex +). -/
def plusRe (r : Re) : Re := .seq r (.star r)

/-- Zero or one repetition (regex ?), preferring presence. -/
def optRe (r : Re) : Re := .alt r .eps

/-- Pattern `car\s*cover` and friends: keyword word, optional
whitespace, then the word cover. -/
def kwRe (w : List Char) : Re :=
  .seq (litsCI w) (.seq wsStar (litsCI "cover".toList))

/-- Class `[^<\n]` of the price pattern. -/
def notLtNl : Re := .cls (fun c => !(c == '<' || c == '\n'))

/-- Class `[\d,]` of the price pattern. -/
def digComma : Re := .cls (fun c => c.isDigit || c == ',')

/-- Keyword alternation of the price pattern (car, seat, body). -/
def priceKwAlt : Re :=
  .alt (kwRe "car".toList) (.alt (kwRe "seat".toList) (kwRe "body".toList))

/-- The price pattern of extract_from_page_source (src/main.py line 278):
currency symbol, optional whitespace, one or more digits or commas, then
optionally whitespace and non-tag text containing a cover keyword. -/
def price_pattern : Re :=
  .seq (.cls (fun c => c == '₹'))
    (.seq wsStar
      (.seq (plusRe digComma)
        (optRe (.seq wsStar (.seq (.star notLtNl) (.seq priceKwAlt (.star notLtNl)))))))

/-- Class `[^<>]` of the title pattern. -/
def notAngle : Re := .cls (fun c => !(c == '<' || c == '>'))

/-- Keyword alternation of the title pattern (car, seat, body, wheel). -/
def titleKwAlt : Re :=
  .alt (kwRe "car".toList)
    (.alt (kwRe "seat".toList) (.alt (kwRe "body".toList) (kwRe "wheel".toList)))

/-- The title pattern of extract_from_page_source (src/main.py line 286):
a cover keyword followed by arbitrary non-tag characters. -/
def title_pattern : Re := .seq titleKwAlt (.star notAngle)

/-- One listing record: the five keys of the output dictionary.  The
price field is optional because Python can store `None` there (the
other fields are always strings in the source). -/
structure Listing where
  title : List Char
  price : Option (List Char)
  location : List Char
  date : List Char
  url : List Char
deriving DecidableEq

/-- Loop body of extract_from_page_source: clamp a 200-character context
window around the price match, search it for a title, and append a
listing when one is found. -/
def degradedStep (page_source : List Char) (listings : List Listing) (m : RMatch) :
    List Listing :=
  let context_start := m.start - 200
  let context_end := min page_source.length (m.stop + 200)
  let context := (page_source.drop context_start).take (context_end - context_start)
  match reSearch title_pattern context with
  | some tm =>
    listings ++ [⟨pyStrip tm.text, extract_price (some m.text), NA, NA, NA⟩]
  | none => listings

/-- OLXCarCoverScraper.extract_from_page_source (src/main.py lines
273-300): iterate the non-overlapping price-pattern matches in order
and run `degradedStep` on each. -/
def extract_from_page_source (page_source : List Char) : List Listing :=
  (finditer price_pattern page_source).foldl (degradedStep page_source) []

/-- Target vocabulary of is_car_cover_listing (src/main.py line 306). -/
def car_cover_keywords : List (List Char) :=
  ["car cover".toList, "body cover".toList, "seat cover".toList, "wheel cover".toList,
   "brake cover".toList, "car mat".toList]

/-- Exclusion vocabulary of is_car_cover_listing (src/main.py line 308). -/
def exclude_keywords : List (List Char) :=
  ["bhk".toList, "flat".toList, "apartment".toList, "parking".toList, "rent".toList,
   "sale".toList, "sqft".toList, "bathroom".toList, "bedroom".toList]

/-- OLXCarCoverScraper.is_car_cover_listing (src/main.py lines 302-313).
The argument models `listing_data.get("title", "")`: `none` is a record
with no title key, which defaults to the empty string. -/
def is_car_cover_listing (title_value : Option (List Char)) : Bool :=
  let title := lowerStr (title_value.getD [])
  (car_cover_keywords.any (fun kw => substrB kw title)) &&
    !(exclude_keywords.any (fun kw => substrB kw title))

/-- Result of one find_element call on a rendered node: an unrecoverable
driver fault (any exception other than NoSuchElementException), a miss
(NoSuchElementException), or an element carrying its text and its href
attribute value. -/
inductive FindResult where
  | fault
  | notFound
  | found (text : List Char) (href : List Char)

/-- A rendered listing subtree, modelled by what each selector finds. -/
abbrev Node : Type := List Char → FindResult

/-- Title selector chain (src/main.py lines 100-105). -/
def title_selectors : List (List Char) :=
  ["[data-aut-id=\x27itemTitle\x27]".toList, "h2".toList, "h3".toList,
   ".rui-35953".toList, "a[href*=\x27/item/\x27]".toList]

/-- Price selector chain (src/main.py lines 120-125). -/
def price_selectors : List (List Char) :=
  ["[data-aut-id=\x27itemPrice\x27]".toList, ".rui-ANJaG".toList,
   "span[class*=\x27price\x27]".toList, "span[class*=\x27amount\x27]".toList]

/-- Location selector chain (src/main.py lines 141-146). -/
def location_selectors : List (List Char) :=
  ["[data-aut-id=\x27item-location\x27]".toList, ".rui-1Wks1".toList,
   "span[class*=\x27location\x27]".toList, "span[class*=\x27place\x27]".toList]

/-- Date selector chain (src/main.py lines 160-164). -/
def date_selectors : List (List Char) :=
  ["[data-aut-id=\x27item-date\x27]".toList, "span[class*=\x27date\x27]".toList,
   "span[class*=\x27time\x27]".toList]

/-- Single URL selector (src/main.py line 181). -/
def url_selector : List Char := "a[href*=\x27/item/\x27]".toList

/-- One text-field selector loop of extract_listing_data: `acc` is the
Python loop variable (None, or the last assigned stripped text).  A
found element's stripped text is assigned; a non-empty one breaks the
loop; NoSuchElementException continues; any other fault aborts. -/
def textChain (node : Node) : List (List Char) → Option (List Char) →
    Except Unit (Option (List Char))
  | [], acc => .ok acc
  | sel :: rest, acc =>
    match node sel with
    | .fault => .error ()
    | .notFound => textChain node rest acc
    | .found t _ =>
      let v := pyStrip t
      if v.isEmpty then textChain node rest (some v) else .ok (some v)

/-- The price selector loop of extract_listing_data: like `textChain`
but the candidate text runs through extract_price, and the loop breaks
on a truthy (non-None, non-empty) normalized value. -/
def priceChain (node : Node) : List (List Char) → Option (List Char) →
    Except Unit (Option (List Char))
  | [], acc => .ok acc
  | sel :: rest, acc =>
    match node sel with
    | .fault => .error ()
    | .notFound => priceChain node rest acc
    | .found t _ =>
      let p := extract_price (some (pyStrip t))
      match p with
      | some v => if v.isEmpty then priceChain node rest p else .ok p
      | none => priceChain node rest p

/-- OLXCarCoverScraper.extract_listing_data (src/main.py lines 94-192):
run the four selector chains and the single URL lookup, defaulting falsy
values to the sentinel; any fault other than NoSuchElementException
reaches the enclosing handler, which returns None (each `.error` case
below is that handler). -/
def extract_listing_data (node : Node) : Option Listing :=
  match textChain node title_selectors none with
  | .error _ => none
  | .ok t =>
    match priceChain node price_selectors none with
    | .error _ => none
    | .ok p =>
      match textChain node location_selectors none with
      | .error _ => none
      | .ok l =>
        match textChain node date_selectors none with
        | .error _ => none
        | .ok d =>
          match node url_selector with
          | .fault => none
          | .notFound => some (Listing.mk (pyOr t) (some (pyOr p)) (pyOr l) (pyOr d) NA)
          | .found _ href => some (Listing.mk (pyOr t) (some (pyOr p)) (pyOr l) (pyOr d) href)

/-- Outcome of one bounded WebDriverWait on a selector: a match within
the timeout, a TimeoutException, or any other exception. -/
inductive PollResult where
  | found
  | timeout
  | fault
deriving DecidableEq

/-- The six candidate container selectors of wait_for_listings
(src/main.py lines 68-75), in their fixed order. -/
def wait_selectors : List (List Char) :=
  ["[data-aut-id=\x27itemBox\x27]".toList, ".EIR5N".toList,
   "[data-aut-id=\x27itemTitle\x27]".toList, ".rui-38N2G".toList,
   ".rui-1ykdW".toList, "li[data-aut-id=\x27itemBox\x27]".toList]

/-- Selector loop of wait_for_listings: a TimeoutException continues to
the next selector; any other exception reaches the outer handler, which
returns None. -/
def waitGo (page : List Char → PollResult) : List (List Char) → Option (List Char)
  | [] => none
  | sel :: rest =>
    match page sel with
    | .found => some sel
    | .timeout => waitGo page rest
    | .fault => none

/-- OLXCarCoverScraper.wait_for_listings (src/main.py lines 64-92). -/
def wait_for_listings (page : List Char → PollResult) : Option (List Char) :=
  waitGo page wait_selectors

/-- Scroll bound of the orchestrator (src/main.py line 240). -/
def max_scrolls : Nat := 3

/-- OLXCarCoverScraper.scroll_to_load_more (src/main.py lines 194-211)
on a page whose document height before the k-th scroll is `h k`: report
whether the scroll produced height growth.  The internal exception
handler, which also returns False, is subsumed by a non-growing `h`. -/
def scroll_to_load_more (h : Nat → Nat) (k : Nat) : Bool :=
  h (k + 1) > h k

/-- The scroll loop of scrape_listings (src/main.py lines 239-246),
counting calls to scroll_to_load_more; the fuel is the remaining
attempt budget `max_scrolls - scroll_attempts`. -/
def scrollGo (h : Nat → Nat) : Nat → Nat → Nat
  | _, 0 => 0
  | k, fuel + 1 =>
    if scroll_to_load_more h k then 1 + scrollGo h (k + 1) fuel else 1

/-- Number of scroll-and-settle cycles the orchestrator performs. -/
def scrollCalls (h : Nat → Nat) : Nat :=
  scrollGo h 0 max_scrolls

/-- External collaborators of one scrape session.  Each flag marks a
step of the session that raises an exception in Python; the model makes
the handlers explicit, so the function below is total. -/
structure World where
  setup_ok : Bool
  nav_fault : Bool
  poll : List Char → PollResult
  page_source : List Char
  save_fault : Bool
  heights : Nat → Nat
  elements_fault : Bool
  elements : List Char → List Node

/-- OLXCarCoverScraper.scrape_listings (src/main.py lines 213-271).  A
fault before the per-listing loop reaches the top-level handler while
`all_listings` is still empty, so those paths return the empty list;
driver cleanup is mechanical I/O and not modelled. -/
def scrape_listings (w : World) : List Listing :=
  if !w.setup_ok then []
  else if w.nav_fault then []
  else
    match wait_for_listings w.poll with
    | none =>
      if w.save_fault then [] else extract_from_page_source w.page_source
    | some listing_selector =>
      let _ := scrollCalls w.heights
      if w.elements_fault then []
      else
        (w.elements listing_selector).foldl
          (fun all_listings element =>
            match extract_listing_data element with
            | some listing_data =>
              if is_car_cover_listing (some listing_data.title) then
                all_listings ++ [listing_data]
              else all_listings
            | none => all_listings)
          []

/-! Auxiliary list and stripping lemmas. -/

theorem dropWhile_cases (p : Char → Bool) (l : List Char) :
    l.dropWhile p = [] ∨ ∃ c t, l.dropWhile p = c :: t ∧ p c = false := by
  induction l with
  | nil => exact Or.inl rfl
  | cons c t ih =>
    by_cases h : p c
    · simpa [List.dropWhile_cons, h] using ih
    · exact Or.inr ⟨c, t, by simp [List.dropWhile_cons, h], by simp [h]⟩

theorem dropWhile_head_false (p : Char → Bool) (c : Char) (t : List Char)
    (h : p c = false) : (c :: t).dropWhile p = c :: t := by
  simp [List.dropWhile_cons, h]

theorem dropWhile_idem (p : Char → Bool) (l : List Char) :
    (l.dropWhile p).dropWhile p = l.dropWhile p := by
  rcases dropWhile_cases p l with h | ⟨c, t, h, hc⟩
  · simp [h]
  · rw [h, dropWhile_head_false p c t hc]

theorem dropWhile_suffix (p : Char → Bool) (l : List Char) :
    l.dropWhile p <:+ l := by
  induction l with
  | nil => exact List.suffix_refl _
  | cons c t ih =>
    by_cases h : p c
    · simpa [List.dropWhile_cons, h] using ih.trans (List.suffix_cons c t)
    · simp [List.dropWhile_cons, h]

theorem prefix_head (l₁ l₂ : List Char) (c : Char) (t : List Char)
    (hp : l₁ <+: l₂) (h : l₁ = c :: t) : ∃ t2, l₂ = c :: t2 := by
  subst h
  obtain ⟨r, hr⟩ := hp
  exact ⟨t ++ r, by simp [← hr]⟩

theorem pyStrip_of_ends (s : List Char) (h1 : s.dropWhile isWS = s)
    (h2 : s.reverse.dropWhile isWS = s.reverse) : pyStrip s = s := by
  unfold pyStrip
  rw [h1, h2, List.reverse_reverse]

theorem pyStrip_idem (s : List Char) : pyStrip (pyStrip s) = pyStrip s := by
  set u := s.dropWhile isWS with hu
  set v := u.reverse.dropWhile isWS with hv
  have hps : pyStrip s = v.reverse := rfl
  rw [hps]
  apply pyStrip_of_ends
  · -- the head of v.reverse is the last of v, which is the head of u
    cases hvr : v.reverse with
    | nil => simp
    | cons c t =>
      have hpfx : v.reverse <+: u := by
        have h1 : v <:+ u.reverse := hv ▸ dropWhile_suffix isWS u.reverse
        have h2 : v.reverse <+: u.reverse.reverse := List.reverse_prefix.mpr h1
        rwa [List.reverse_reverse] at h2
      obtain ⟨t2, ht2⟩ := prefix_head v.reverse u c t hpfx hvr
      rcases dropWhile_cases isWS s with h | ⟨c2, t3, h, hc2⟩
      · rw [← hu] at h
        rw [h] at ht2
        exact absurd ht2 (by simp)
      · rw [← hu] at h
        rw [h] at ht2
        obtain ⟨hc, _⟩ := List.cons.inj ht2
        exact dropWhile_head_false isWS c t (hc ▸ hc2)
  · rw [List.reverse_reverse]
    exact hv ▸ dropWhile_idem isWS u.reverse

theorem dropWhile_ne_nil_of_mem (p : Char → Bool) (l : List Char) (c : Char)
    (hc : c ∈ l) (h : p c = false) : l.dropWhile p ≠ [] := by
  induction l with
  | nil => cases hc
  | cons a t ih =>
    by_cases ha : p a
    · rw [List.dropWhile_cons, if_pos ha]
      rcases List.mem_cons.mp hc with rfl | hmem
      · rw [ha] at h; cases h
      · exact ih hmem
    · rw [List.dropWhile_cons, if_neg ha]
      simp

theorem pyStrip_cons_ne_nil (c : Char) (t : List Char) (h : isWS c = false) :
    pyStrip (c :: t) ≠ [] := by
  unfold pyStrip
  rw [dropWhile_head_false isWS c t h]
  have hmem : c ∈ (c :: t).reverse := by simp
  have hne := dropWhile_ne_nil_of_mem isWS (c :: t).reverse c hmem h
  simpa using hne

theorem dropWhile_eq_self_of_all (p : Char → Bool) (l : List Char)
    (h : ∀ c ∈ l, p c = false) : l.dropWhile p = l := by
  cases l with
  | nil => rfl
  | cons c t => exact dropWhile_head_false p c t (h c (by simp))

theorem pyStrip_eq_self_of_all (s : List Char) (h : ∀ c ∈ s, isWS c = false) :
    pyStrip s = s := by
  apply pyStrip_of_ends
  · exact dropWhile_eq_self_of_all isWS s h
  · exact dropWhile_eq_self_of_all isWS s.reverse (by simpa using h)

/-! Lemmas on digit runs and extract_price. -/

theorem digitRunsGo_flatten (s : List Char) : ∀ cur : List Char,
    (digitRunsGo cur s).flatten = cur.reverse ++ s.filter Char.isDigit := by
  induction s with
  | nil =>
    intro cur
    by_cases h : cur.isEmpty
    · simp [digitRunsGo, h, List.isEmpty_iff.mp h]
    · simp [digitRunsGo, h]
  | cons c t ih =>
    intro cur
    by_cases hd : c.isDigit
    · simp [digitRunsGo, hd, ih (c :: cur), List.filter_cons]
    · by_cases h : cur.isEmpty
      · simp [digitRunsGo, hd, h, ih [], List.filter_cons, List.isEmpty_iff.mp h]
      · simp [digitRunsGo, hd, h, ih [], List.filter_cons]

theorem digitRunsGo_ne_nil (s : List Char) : ∀ (cur r : List Char),
    r ∈ digitRunsGo cur s → r ≠ [] := by
  induction s with
  | nil =>
    intro cur r hr
    by_cases h : cur.isEmpty
    · simp [digitRunsGo, h] at hr
    · simp [digitRunsGo, h] at hr
      subst hr
      simpa [List.isEmpty_iff] using h
  | cons c t ih =>
    intro cur r hr
    by_cases hd : c.isDigit
    · exact ih (c :: cur) r (by simpa [digitRunsGo, hd] using hr)
    · by_cases h : cur.isEmpty
      · exact ih [] r (by simpa [digitRunsGo, hd, h] using hr)
      · simp [digitRunsGo, hd, h] at hr
        rcases hr with rfl | hr
        · simpa [List.isEmpty_iff] using h
        · exact ih [] r hr

theorem digitRuns_flatten (s : List Char) :
    (digitRuns s).flatten = s.filter Char.isDigit := by
  simpa using digitRunsGo_flatten s []

theorem digitRuns_eq_nil_iff (s : List Char) :
    digitRuns s = [] ↔ s.filter Char.isDigit = [] := by
  constructor
  · intro h
    have := digitRuns_flatten s
    rw [h] at this
    exact this.symm
  · intro h
    cases hr : digitRuns s with
    | nil => rfl
    | cons r rest =>
      have hfl := digitRuns_flatten s
      rw [hr, h] at hfl
      have hrnil : r = [] := by
        have hx : (r :: rest).flatten = [] := hfl
        simp only [List.flatten_cons, List.append_eq_nil] at hx
        exact hx.1
      have hmem : r ∈ digitRunsGo [] s := by
        have hgo : digitRunsGo [] s = r :: rest := hr
        rw [hgo]
        exact List.mem_cons_self r rest
      exact absurd hrnil (digitRunsGo_ne_nil s [] r hmem)

/-- Cleaned price text: stripped, with currency symbol, commas and
whitespace removed. -/
def cleanPrice (s : List Char) : List Char :=
  (pyStrip s).filter (fun c => !priceStripClass c)

theorem extract_price_eq (s : List Char) :
    extract_price (some s) =
      if (cleanPrice s).filter Char.isDigit = [] then none
      else some ((cleanPrice s).filter Char.isDigit) := by
  show (if s.isEmpty then none
        else
          let price_clean := (pyStrip s).filter (fun c => !priceStripClass c)
          let numbers := digitRuns price_clean
          if numbers.isEmpty then none else some numbers.flatten) = _
  by_cases hs : s.isEmpty
  · have hnil : s = [] := List.isEmpty_iff.mp hs
    subst hnil
    simp [cleanPrice, pyStrip]
  · simp only [hs, if_false]
    show (if (digitRuns (cleanPrice s)).isEmpty then none
          else some (digitRuns (cleanPrice s)).flatten) = _
    by_cases h : (cleanPrice s).filter Char.isDigit = []
    · rw [if_pos (List.isEmpty_iff.mpr ((digitRuns_eq_nil_iff _).mpr h)), if_pos h]
    · have h2 : ¬ (digitRuns (cleanPrice s)).isEmpty = true := by
        rw [List.isEmpty_iff]
        exact fun hc => h ((digitRuns_eq_nil_iff _).mp hc)
      rw [if_neg h2, if_neg h, digitRuns_flatten]

theorem extract_price_some (x : Option (List Char)) (v : List Char)
    (h : extract_price x = some v) : v ≠ [] ∧ ∀ c ∈ v, c.isDigit = true := by
  cases x with
  | none => cases h
  | some s =>
    rw [extract_price_eq] at h
    by_cases hc : (cleanPrice s).filter Char.isDigit = []
    · rw [if_pos hc] at h; cases h
    · rw [if_neg hc] at h
      obtain rfl : (cleanPrice s).filter Char.isDigit = v := by
        injection h
      exact ⟨hc, fun c hcv => (List.mem_filter.mp hcv).2⟩

/-- Digits are not whitespace, so extract_price output is trimmed. -/
theorem isWS_false_of_digit (c : Char) (h : c.isDigit = true) : isWS c = false := by
  by_contra hw
  have hw2 : isWS c = true := by simpa using hw
  simp only [isWS, Bool.or_eq_true, beq_iff_eq] at hw2
  rcases hw2 with ((((h1 | h1) | h1) | h1) | h1) | h1 <;> subst h1 <;>
    exact absurd h (by decide)

/-! Substring lemmas: the Boolean tests agree with the Mathlib order
relations on lists. -/

theorem pfxB_iff (n : List Char) : ∀ h : List Char, pfxB n h = true ↔ n <+: h := by
  induction n with
  | nil => intro h; simp [pfxB]
  | cons a as ih =>
    intro h
    cases h with
    | nil => simp [pfxB]
    | cons b bs =>
      simp only [pfxB, Bool.and_eq_true, beq_iff_eq, ih bs, List.cons_prefix_cons]

theorem substrB_iff (n h : List Char) : substrB n h = true ↔ n <:+: h := by
  induction h with
  | nil => simp [substrB, pfxB_iff]
  | cons c rest ih =>
    simp only [substrB, Bool.or_eq_true, pfxB_iff, ih, List.infix_cons_iff]

theorem substrB_false_iff (n h : List Char) :
    (substrB n h = false) ↔ ¬ n <:+: h := by
  rw [← substrB_iff]
  exact Bool.eq_false_iff

/-! Engine lemmas: a successful match hands the continuation a suffix of
the input, and a keyword alternation consumes a non-whitespace head
character. -/

theorem starLoop_suffix
    (body : List Char → (List Char → Option (List Char)) → Option (List Char))
    (hbody : ∀ s k r, body s k = some r → ∃ s1, s1 <:+ s ∧ k s1 = some r) :
    ∀ (fuel : Nat) (s : List Char) (k : List Char → Option (List Char)) (r : List Char),
      starLoop body fuel s k = some r → ∃ s1, s1 <:+ s ∧ k s1 = some r := by
  intro fuel
  induction fuel with
  | zero => exact fun s k r h => ⟨s, List.suffix_refl s, h⟩
  | succ fuel ih =>
    intro s k r h
    rw [starLoop] at h
    split at h
    next r0 hb =>
      obtain rfl : r0 = r := by injection h
      obtain ⟨s1, hs1, hk⟩ := hbody _ _ _ hb
      by_cases hlt : s1.length < s.length
      · rw [if_pos hlt] at hk
        obtain ⟨s2, hs2, hk2⟩ := ih s1 k _ hk
        exact ⟨s2, hs2.trans hs1, hk2⟩
      · rw [if_neg hlt] at hk; cases hk
    next hb => exact ⟨s, List.suffix_refl s, h⟩

theorem mre_suffix (re : Re) :
    ∀ (s : List Char) (k : List Char → Option (List Char)) (r : List Char),
      mre re s k = some r → ∃ s1, s1 <:+ s ∧ k s1 = some r := by
  induction re with
  | eps => exact fun s k r h => ⟨s, List.suffix_refl s, h⟩
  | cls p =>
    intro s k r h
    cases s with
    | nil => rw [mre] at h; cases h
    | cons c t =>
      rw [mre] at h
      by_cases hp : p c
      · rw [if_pos hp] at h
        exact ⟨t, List.suffix_cons c t, h⟩
      · rw [if_neg hp] at h; cases h
  | seq a b iha ihb =>
    intro s k r h
    rw [mre] at h
    obtain ⟨s1, hs1, h1⟩ := iha s _ r h
    obtain ⟨s2, hs2, h2⟩ := ihb s1 k r h1
    exact ⟨s2, hs2.trans hs1, h2⟩
  | alt a b iha ihb =>
    intro s k r h
    rw [mre] at h
    split at h
    next r0 hb =>
      obtain rfl : r0 = r := by injection h
      exact iha s k _ hb
    next hb => exact ihb s k r h
  | star q ihq =>
    intro s k r h
    rw [mre] at h
    exact starLoop_suffix (mre q) ihq _ s k r h

theorem mre_seq (a b : Re) (s : List Char) (k : List Char → Option (List Char)) :
    mre (.seq a b) s k = mre a s (fun s1 => mre b s1 k) := rfl

theorem mre_cls_nil (p : Char → Bool) (k : List Char → Option (List Char)) :
    mre (.cls p) [] k = none := rfl

theorem mre_cls_cons (p : Char → Bool) (c : Char) (t : List Char)
    (k : List Char → Option (List Char)) :
    mre (.cls p) (c :: t) k = if p c then k t else none := rfl

theorem litsCI_head (c : Char) (w s : List Char) (k : List Char → Option (List Char))
    (r : List Char) (h : mre (litsCI (c :: w)) s k = some r) :
    ∃ ch t, s = ch :: t ∧ ch.toLower = c ∧ ∃ s1, s1 <:+ t ∧ k s1 = some r := by
  rw [litsCI, mre_seq] at h
  cases s with
  | nil =>
    rw [litCI, mre_cls_nil] at h
    cases h
  | cons ch t =>
    simp only [litCI, mre_cls_cons] at h
    by_cases hp : ch.toLower == c
    · rw [if_pos hp] at h
      obtain ⟨s1, hs1, hk⟩ := mre_suffix (litsCI w) t _ r h
      exact ⟨ch, t, rfl, by simpa using hp, s1, hs1, hk⟩
    · rw [if_neg hp] at h; cases h

theorem kwRe_head (c : Char) (w s : List Char) (k : List Char → Option (List Char))
    (r : List Char) (h : mre (kwRe (c :: w)) s k = some r) :
    ∃ ch t, s = ch :: t ∧ ch.toLower = c ∧ ∃ s1, s1 <:+ t ∧ k s1 = some r := by
  rw [kwRe, mre_seq] at h
  obtain ⟨ch, t, hs, hc, s1, hs1, hk⟩ := litsCI_head c w s _ r h
  obtain ⟨s2, hs2, hk2⟩ := mre_suffix _ s1 k r hk
  exact ⟨ch, t, hs, hc, s2, hs2.trans hs1, hk2⟩

theorem toLower_kw_not_ws (c : Char)
    (hc : c.toLower = 'c' ∨ c.toLower = 's' ∨ c.toLower = 'b' ∨ c.toLower = 'w') :
    isWS c = false := by
  by_contra hw
  have hw2 : isWS c = true := by simpa using hw
  simp only [isWS, Bool.or_eq_true, beq_iff_eq] at hw2
  rcases hw2 with ((((h1 | h1) | h1) | h1) | h1) | h1 <;> subst h1 <;>
    rcases hc with h2 | h2 | h2 | h2 <;> exact absurd h2 (by decide)

theorem titleKwAlt_head (s : List Char) (k : List Char → Option (List Char))
    (r : List Char) (h : mre titleKwAlt s k = some r) :
    ∃ ch t, s = ch :: t ∧ isWS ch = false ∧ ∃ s1, s1 <:+ t ∧ k s1 = some r := by
  rw [titleKwAlt, mre] at h
  split at h
  next r0 hb =>
    obtain rfl : r0 = r := by injection h
    have hb2 : mre (kwRe ('c' :: "ar".toList)) s k = some r0 := hb
    obtain ⟨ch, t, hs, hc, hrest⟩ := kwRe_head 'c' _ s k r0 hb2
    exact ⟨ch, t, hs, toLower_kw_not_ws ch (Or.inl hc), hrest⟩
  next hb =>
    rw [mre] at h
    split at h
    next r0 hb2 =>
      obtain rfl : r0 = r := by injection h
      have hb3 : mre (kwRe ('s' :: "eat".toList)) s k = some r0 := hb2
      obtain ⟨ch, t, hs, hc, hrest⟩ := kwRe_head 's' _ s k r0 hb3
      exact ⟨ch, t, hs, toLower_kw_not_ws ch (Or.inr (Or.inl hc)), hrest⟩
    next hb2 =>
      rw [mre] at h
      split at h
      next r0 hb3 =>
        obtain rfl : r0 = r := by injection h
        have hb4 : mre (kwRe ('b' :: "ody".toList)) s k = some r0 := hb3
        obtain ⟨ch, t, hs, hc, hrest⟩ := kwRe_head 'b' _ s k r0 hb4
        exact ⟨ch, t, hs, toLower_kw_not_ws ch (Or.inr (Or.inr (Or.inl hc))), hrest⟩
      next hb3 =>
        have hb4 : mre (kwRe ('w' :: "heel".toList)) s k = some r := h
        obtain ⟨ch, t, hs, hc, hrest⟩ := kwRe_head 'w' _ s k r hb4
        exact ⟨ch, t, hs, toLower_kw_not_ws ch (Or.inr (Or.inr (Or.inr hc))), hrest⟩

theorem title_matchEnd (s : List Char) (n : Nat)
    (h : matchEnd title_pattern s = some n) :
    1 ≤ n ∧ ∃ ch t, s = ch :: t ∧ isWS ch = false := by
  rw [matchEnd] at h
  cases hm : mre title_pattern s some with
  | none => rw [hm] at h; cases h
  | some rest =>
    rw [hm] at h
    obtain rfl : s.length - rest.length = n := by injection h
    rw [title_pattern, mre_seq] at hm
    obtain ⟨ch, t, hs, hws, s1, hs1, hk⟩ := titleKwAlt_head s _ rest hm
    obtain ⟨s2, hs2, hk2⟩ := mre_suffix _ s1 _ rest hk
    have heq : s2 = rest := by injection hk2
    have hlen : rest.length ≤ t.length :=
      heq ▸ le_trans hs2.length_le hs1.length_le
    have hslen : s.length = t.length + 1 := by rw [hs]; simp
    exact ⟨by omega, ch, t, hs, hws⟩

theorem reSearchGo_title (fuel : Nat) :
    ∀ (s : List Char) (i : Nat) (tm : RMatch),
      reSearchGo title_pattern fuel s i = some tm →
      ∃ ch t2, tm.text = ch :: t2 ∧ isWS ch = false := by
  induction fuel with
  | zero => intro s i tm h; cases h
  | succ fuel ih =>
    intro s i tm h
    simp only [reSearchGo] at h
    split at h
    next n hm =>
      obtain rfl : RMatch.mk i (s.take n) = tm := by injection h
      obtain ⟨hn, ch, t, hs, hws⟩ := title_matchEnd s n hm
      refine ⟨ch, t.take (n - 1), ?_, hws⟩
      subst hs
      show (ch :: t).take n = ch :: t.take (n - 1)
      cases n with
      | zero => omega
      | succ m => simp
    next hm =>
      cases s with
      | nil =>
        replace h : (none : Option RMatch) = some tm := h
        cases h
      | cons c t => exact ih t (i + 1) tm h

theorem reSearch_title (s : List Char) (tm : RMatch)
    (h : reSearch title_pattern s = some tm) :
    ∃ ch t2, tm.text = ch :: t2 ∧ isWS ch = false :=
  reSearchGo_title (s.length + 1) s 0 tm h

/-! Ordering of finditer output: matches are non-overlapping and listed
by position. -/

theorem findIterGo_start_ge (re : Re) (fuel : Nat) :
    ∀ (s : List Char) (i : Nat) (m : RMatch),
      m ∈ findIterGo re fuel s i → i ≤ m.start := by
  induction fuel with
  | zero => intro s i m h; cases h
  | succ fuel ih =>
    intro s i m h
    simp only [findIterGo] at h
    split at h
    next n hm =>
      split at h
      next hn =>
        cases s with
        | nil =>
          replace h : m ∈ [RMatch.mk i []] := h
          simp at h
          subst h; exact le_refl i
        | cons c t =>
          replace h : m ∈ RMatch.mk i [] :: findIterGo re fuel t (i + 1) := h
          rcases List.mem_cons.mp h with rfl | h2
          · exact le_refl i
          · exact le_trans (Nat.le_succ i) (ih t (i + 1) m h2)
      next hn =>
        rcases List.mem_cons.mp h with rfl | h2
        · exact le_refl i
        · exact le_trans (Nat.le_add_right i n) (ih _ (i + n) m h2)
    next hm =>
      cases s with
      | nil =>
        replace h : m ∈ ([] : List RMatch) := h
        cases h
      | cons c t => exact le_trans (Nat.le_succ i) (ih t (i + 1) m h)

theorem findIterGo_chain (re : Re) (fuel : Nat) :
    ∀ (s : List Char) (i : Nat),
      List.Chain' (fun a b => a.stop ≤ b.start ∧ a.start < b.start)
        (findIterGo re fuel s i) := by
  induction fuel with
  | zero => intro s i; exact List.chain'_nil
  | succ fuel ih =>
    intro s i
    simp only [findIterGo]
    split
    next n hm =>
      split
      next hn =>
        cases s with
        | nil => simp
        | cons c t =>
          rw [List.chain'_cons']
          refine ⟨?_, ih t (i + 1)⟩
          intro b hb
          have hmem := List.mem_of_mem_head? hb
          have hge := findIterGo_start_ge re fuel t (i + 1) b hmem
          have hstop : (RMatch.mk i []).stop = i := rfl
          have hstart : (RMatch.mk i []).start = i := rfl
          exact ⟨by omega, by omega⟩
      next hn =>
        rw [List.chain'_cons']
        refine ⟨?_, ih _ (i + n)⟩
        intro b hb
        have hmem := List.mem_of_mem_head? hb
        have hge := findIterGo_start_ge re fuel _ (i + n) b hmem
        have hlen : (s.take n).length ≤ n := by
          simp [List.length_take]
        have hstop : (RMatch.mk i (s.take n)).stop = i + (s.take n).length := rfl
        have hstart : (RMatch.mk i (s.take n)).start = i := rfl
        have hn1 : 1 ≤ n := Nat.one_le_iff_ne_zero.mpr hn
        exact ⟨by omega, by omega⟩
    next hm =>
      cases s with
      | nil => exact List.chain'_nil
      | cons c t => exact ih t (i + 1)

theorem finditer_chain (re : Re) (s : List Char) :
    List.Chain' (fun a b => a.stop ≤ b.start ∧ a.start < b.start) (finditer re s) :=
  findIterGo_chain re (s.length + 1) s 0

/-! The degraded extractor as a filterMap over the price matches. -/

/-- Context window of one price match: 200 characters before the match
start and 200 after the match end, clamped to the string bounds. -/
def contextOf (page_source : List Char) (m : RMatch) : List Char :=
  (page_source.drop (m.start - 200)).take
    (min page_source.length (m.stop + 200) - (m.start - 200))

/-- What one price match contributes: a listing whose title is the
trimmed first title-pattern match of the context window, whose price is
the normalized matched text, and whose other fields are the sentinel;
nothing when the window has no title match. -/
def degradedEmit (page_source : List Char) (m : RMatch) : Option Listing :=
  match reSearch title_pattern (contextOf page_source m) with
  | some tm => some ⟨pyStrip tm.text, extract_price (some m.text), NA, NA, NA⟩
  | none => none

theorem degradedStep_eq (ps : List Char) (ls : List Listing) (m : RMatch) :
    degradedStep ps ls m = ls ++ (degradedEmit ps m).toList := by
  delta degradedStep degradedEmit contextOf
  simp only []
  split
  next tm heq => rfl
  next heq => exact (List.append_nil ls).symm

theorem foldl_degradedStep (ps : List Char) :
    ∀ (l : List RMatch) (acc : List Listing),
      l.foldl (degradedStep ps) acc = acc ++ l.filterMap (degradedEmit ps) := by
  intro l
  induction l with
  | nil => intro acc; simp
  | cons m t ih =>
    intro acc
    rw [List.foldl_cons, degradedStep_eq, ih, List.filterMap_cons]
    cases degradedEmit ps m with
    | some y => simp
    | none => simp

set_option maxRecDepth 4000 in
theorem extract_from_page_source_eq (ps : List Char) :
    extract_from_page_source ps =
      (finditer price_pattern ps).filterMap (degradedEmit ps) := by
  unfold extract_from_page_source
  exact (foldl_degradedStep ps (finditer price_pattern ps) []).trans
    (List.nil_append _)

/-! Spec-side description of the selector chains, and the lemmas tying
them to the source loops. -/

/-- Spec-side text chain: trimmed text of the first selector whose match
yields non-empty text, else the sentinel. -/
def firstChainText (node : Node) : List (List Char) → List Char
  | [] => NA
  | sel :: rest =>
    match node sel with
    | .found t _ => if (pyStrip t).isEmpty then firstChainText node rest else pyStrip t
    | _ => firstChainText node rest

/-- Spec-side price chain: first selector whose normalized text is
non-null, else the sentinel. -/
def firstChainPrice (node : Node) : List (List Char) → List Char
  | [] => NA
  | sel :: rest =>
    match node sel with
    | .found t _ =>
      match extract_price (some (pyStrip t)) with
      | some v => v
      | none => firstChainPrice node rest
    | _ => firstChainPrice node rest

/-- Spec-side URL field: the href of the anchor selector, else the
sentinel. -/
def urlField (node : Node) : List Char :=
  match node url_selector with
  | .found _ href => href
  | _ => NA

theorem textChain_ok (node : Node) :
    ∀ (sels : List (List Char)) (acc : Option (List Char)),
      (∀ sel ∈ sels, node sel ≠ .fault) → pyOr acc = NA →
      ∃ r, textChain node sels acc = .ok r ∧ pyOr r = firstChainText node sels := by
  intro sels
  induction sels with
  | nil =>
    intro acc _ hacc
    exact ⟨acc, rfl, by rw [hacc]; rfl⟩
  | cons sel rest ih =>
    intro acc hnf hacc
    have hnf2 : ∀ s ∈ rest, node s ≠ .fault :=
      fun s hs => hnf s (List.mem_cons_of_mem _ hs)
    cases hns : node sel with
    | fault => exact absurd hns (hnf sel (List.mem_cons_self _ _))
    | notFound =>
      obtain ⟨r, hr, hpr⟩ := ih acc hnf2 hacc
      refine ⟨r, ?_, ?_⟩
      · simp only [textChain, hns]
        exact hr
      · rw [hpr]
        simp only [firstChainText, hns]
    | found t href =>
      by_cases he : (pyStrip t).isEmpty
      · obtain ⟨r, hr, hpr⟩ := ih (some (pyStrip t)) hnf2
          (by simp [pyOr, List.isEmpty_iff.mp he])
        refine ⟨r, ?_, ?_⟩
        · simp only [textChain, hns, he, if_true]
          exact hr
        · rw [hpr]
          simp only [firstChainText, hns, he, if_true]
      · refine ⟨some (pyStrip t), ?_, ?_⟩
        · simp [textChain, hns, he]
        · simp only [firstChainText, hns, pyOr]
          rw [if_neg he, if_neg (by simpa using he)]

theorem priceChain_ok (node : Node) :
    ∀ (sels : List (List Char)) (acc : Option (List Char)),
      (∀ sel ∈ sels, node sel ≠ .fault) → pyOr acc = NA →
      ∃ r, priceChain node sels acc = .ok r ∧ pyOr r = firstChainPrice node sels := by
  intro sels
  induction sels with
  | nil =>
    intro acc _ hacc
    exact ⟨acc, rfl, by rw [hacc]; rfl⟩
  | cons sel rest ih =>
    intro acc hnf hacc
    have hnf2 : ∀ s ∈ rest, node s ≠ .fault :=
      fun s hs => hnf s (List.mem_cons_of_mem _ hs)
    cases hns : node sel with
    | fault => exact absurd hns (hnf sel (List.mem_cons_self _ _))
    | notFound =>
      obtain ⟨r, hr, hpr⟩ := ih acc hnf2 hacc
      refine ⟨r, ?_, ?_⟩
      · simp only [priceChain, hns]
        exact hr
      · rw [hpr]
        simp only [firstChainPrice, hns]
    | found t href =>
      cases hp : extract_price (some (pyStrip t)) with
      | some v =>
        have hv : ¬ v.isEmpty = true := by
          rw [List.isEmpty_iff]
          exact (extract_price_some _ v hp).1
        refine ⟨some v, ?_, ?_⟩
        · simp [priceChain, hns, hp, hv]
        · simp only [firstChainPrice, hns, hp, pyOr]
          rw [if_neg hv]
      | none =>
        obtain ⟨r, hr, hpr⟩ := ih none hnf2 rfl
        refine ⟨r, ?_, ?_⟩
        · simp only [priceChain, hns, hp]
          exact hr
        · rw [hpr]
          simp only [firstChainPrice, hns, hp]

theorem textChain_result (node : Node) :
    ∀ (sels : List (List Char)) (acc r : Option (List Char)),
      textChain node sels acc = .ok r →
      (acc = none ∨ ∃ t, acc = some (pyStrip t)) →
      (r = none ∨ ∃ t, r = some (pyStrip t)) := by
  intro sels
  induction sels with
  | nil =>
    intro acc r h hacc
    obtain rfl : acc = r := by injection h
    exact hacc
  | cons sel rest ih =>
    intro acc r h hacc
    cases hns : node sel with
    | fault =>
      simp [textChain, hns] at h
    | notFound =>
      simp only [textChain, hns] at h
      exact ih acc r h hacc
    | found t href =>
      simp only [textChain, hns] at h
      by_cases he : (pyStrip t).isEmpty
      · rw [if_pos he] at h
        exact ih _ r h (Or.inr ⟨t, rfl⟩)
      · rw [if_neg he] at h
        obtain rfl : some (pyStrip t) = r := by injection h
        exact Or.inr ⟨t, rfl⟩

theorem priceChain_result (node : Node) :
    ∀ (sels : List (List Char)) (acc r : Option (List Char)),
      priceChain node sels acc = .ok r →
      (acc = none ∨ ∃ x, extract_price x = acc) →
      (r = none ∨ ∃ x, extract_price x = r) := by
  intro sels
  induction sels with
  | nil =>
    intro acc r h hacc
    obtain rfl : acc = r := by injection h
    exact hacc
  | cons sel rest ih =>
    intro acc r h hacc
    cases hns : node sel with
    | fault =>
      simp [priceChain, hns] at h
    | notFound =>
      simp only [priceChain, hns] at h
      exact ih acc r h hacc
    | found t href =>
      simp only [priceChain, hns] at h
      cases hp : extract_price (some (pyStrip t)) with
      | some v =>
        rw [hp] at h
        replace h : (if v.isEmpty = true then priceChain node rest (some v)
            else Except.ok (some v)) = Except.ok r := h
        by_cases hv : v.isEmpty
        · rw [if_pos hv] at h
          exact ih _ r h (Or.inr ⟨some (pyStrip t), hp⟩)
        · rw [if_neg hv] at h
          obtain rfl : some v = r := by injection h
          exact Or.inr ⟨some (pyStrip t), hp⟩
      | none =>
        rw [hp] at h
        replace h : priceChain node rest none = Except.ok r := h
        exact ih _ r h (Or.inl rfl)

/-- Per-field goodness of a produced value: the sentinel or a non-empty
trimmed string. -/
def goodStr (v : List Char) : Prop :=
  v = NA ∨ (v ≠ [] ∧ pyStrip v = v)

theorem pyOr_good (r : Option (List Char))
    (hr : r = none ∨ ∃ t, r = some (pyStrip t)) : goodStr (pyOr r) := by
  rcases hr with rfl | ⟨t, rfl⟩
  · exact Or.inl rfl
  · by_cases he : (pyStrip t).isEmpty
    · left
      simp [pyOr, he]
    · right
      have hne : pyStrip t ≠ [] := by
        intro hh
        rw [hh] at he
        exact he rfl
      constructor
      · simpa [pyOr, he] using hne
      · simp only [pyOr]
        rw [if_neg (by simpa using he)]
        exact pyStrip_idem t

theorem pyOr_price_good (r : Option (List Char))
    (hr : r = none ∨ ∃ x, extract_price x = r) :
    pyOr r = NA ∨
      (pyOr r ≠ [] ∧ (∀ c ∈ pyOr r, c.isDigit = true) ∧ pyStrip (pyOr r) = pyOr r) := by
  rcases hr with rfl | ⟨x, hx⟩
  · exact Or.inl rfl
  · cases r with
    | none => exact Or.inl rfl
    | some v =>
      obtain ⟨hne, hdig⟩ := extract_price_some x v hx
      have he : ¬ v.isEmpty = true := by rw [List.isEmpty_iff]; exact hne
      have hpv : pyOr (some v) = v := by
        simp only [pyOr]
        rw [if_neg he]
      rw [hpv]
      exact Or.inr ⟨hne, hdig,
        pyStrip_eq_self_of_all v (fun c hc => isWS_false_of_digit c (hdig c hc))⟩

theorem extract_listing_data_eq (node : Node) (hnf : ∀ sel, node sel ≠ .fault) :
    extract_listing_data node = some
      (Listing.mk (firstChainText node title_selectors)
        (some (firstChainPrice node price_selectors))
        (firstChainText node location_selectors)
        (firstChainText node date_selectors)
        (urlField node)) := by
  obtain ⟨rt, hrt, hprt⟩ := textChain_ok node title_selectors none (fun s _ => hnf s) rfl
  obtain ⟨rp, hrp, hprp⟩ := priceChain_ok node price_selectors none (fun s _ => hnf s) rfl
  obtain ⟨rl, hrl, hprl⟩ := textChain_ok node location_selectors none (fun s _ => hnf s) rfl
  obtain ⟨rd, hrd, hprd⟩ := textChain_ok node date_selectors none (fun s _ => hnf s) rfl
  cases hu : node url_selector with
  | fault => exact absurd hu (hnf url_selector)
  | notFound =>
    simp only [extract_listing_data, hrt, hrp, hrl, hrd, hu]
    rw [hprt, hprp, hprl, hprd]
    simp [urlField, hu]
  | found t2 href =>
    simp only [extract_listing_data, hrt, hrp, hrl, hrd, hu]
    rw [hprt, hprp, hprl, hprd]
    simp [urlField, hu]

theorem extract_listing_data_good (node : Node) (l : Listing)
    (hwf : ∀ t h2, node url_selector = .found t h2 →
      substrB "/item/".toList h2 = true ∧ pyStrip h2 = h2)
    (hext : extract_listing_data node = some l) :
    goodStr l.title ∧
      (∃ p, l.price = some p ∧
        (p = NA ∨ (p ≠ [] ∧ (∀ c ∈ p, c.isDigit = true) ∧ pyStrip p = p))) ∧
      goodStr l.location ∧ goodStr l.date ∧ goodStr l.url := by
  rw [extract_listing_data] at hext
  cases ht : textChain node title_selectors none with
  | error e =>
    rw [ht] at hext
    replace hext : (none : Option Listing) = some l := hext
    cases hext
  | ok rt =>
    rw [ht] at hext
    cases hp : priceChain node price_selectors none with
    | error e =>
      rw [hp] at hext
      replace hext : (none : Option Listing) = some l := hext
      cases hext
    | ok rp =>
      rw [hp] at hext
      cases hl : textChain node location_selectors none with
      | error e =>
        rw [hl] at hext
        replace hext : (none : Option Listing) = some l := hext
        cases hext
      | ok rl =>
        rw [hl] at hext
        cases hd : textChain node date_selectors none with
        | error e =>
          rw [hd] at hext
          replace hext : (none : Option Listing) = some l := hext
          cases hext
        | ok rd =>
          rw [hd] at hext
          have hgt : goodStr (pyOr rt) :=
            pyOr_good rt (textChain_result node _ none rt ht (Or.inl rfl))
          have hgp := pyOr_price_good rp
            (priceChain_result node _ none rp hp (Or.inl rfl))
          have hgl : goodStr (pyOr rl) :=
            pyOr_good rl (textChain_result node _ none rl hl (Or.inl rfl))
          have hgd : goodStr (pyOr rd) :=
            pyOr_good rd (textChain_result node _ none rd hd (Or.inl rfl))
          cases hu : node url_selector with
          | fault =>
            rw [hu] at hext
            replace hext : (none : Option Listing) = some l := hext
            cases hext
          | notFound =>
            rw [hu] at hext
            replace hext : some (Listing.mk (pyOr rt) (some (pyOr rp)) (pyOr rl)
              (pyOr rd) NA) = some l := hext
            obtain rfl : Listing.mk (pyOr rt) (some (pyOr rp)) (pyOr rl) (pyOr rd) NA = l := by
              injection hext
            exact ⟨hgt, ⟨pyOr rp, rfl, hgp⟩, hgl, hgd, Or.inl rfl⟩
          | found t2 href =>
            rw [hu] at hext
            replace hext : some (Listing.mk (pyOr rt) (some (pyOr rp)) (pyOr rl)
              (pyOr rd) href) = some l := hext
            obtain rfl : Listing.mk (pyOr rt) (some (pyOr rp)) (pyOr rl) (pyOr rd) href = l := by
              injection hext
            obtain ⟨hsub, hstrip⟩ := hwf t2 href hu
            have hne : href ≠ [] := by
              intro hh
              rw [hh] at hsub
              exact absurd hsub (by decide)
            exact ⟨hgt, ⟨pyOr rp, rfl, hgp⟩, hgl, hgd, Or.inr ⟨hne, hstrip⟩⟩

/-- One iteration of the per-listing loop of scrape_listings: the
listing kept by that iteration, if any. -/
def relevantExtract (element : Node) : Option Listing :=
  match extract_listing_data element with
  | some listing_data =>
    if is_car_cover_listing (some listing_data.title) then some listing_data else none
  | none => none

theorem scrape_foldl (elems : List Node) :
    ∀ acc : List Listing,
      elems.foldl
        (fun all_listings element =>
          match extract_listing_data element with
          | some listing_data =>
            if is_car_cover_listing (some listing_data.title) then
              all_listings ++ [listing_data]
            else all_listings
          | none => all_listings)
        acc = acc ++ elems.filterMap relevantExtract := by
  induction elems with
  | nil => intro acc; simp
  | cons el rest ih =>
    intro acc
    rw [List.foldl_cons, List.filterMap_cons]
    have hstep : (match extract_listing_data el with
        | some listing_data =>
          if is_car_cover_listing (some listing_data.title) then acc ++ [listing_data]
          else acc
        | none => acc) = acc ++ (relevantExtract el).toList := by
      rw [relevantExtract]
      cases extract_listing_data el with
      | some d =>
        by_cases hc : is_car_cover_listing (some d.title)
        · simp [hc]
        · simp [hc]
      | none => simp
    rw [hstep, ih]
    cases relevantExtract el with
    | some y => simp
    | none => simp

/-! Lemmas for the locator and the scroll loop. -/

theorem waitGo_timeout (page : List Char → PollResult) :
    ∀ sels : List (List Char),
      (∀ sel ∈ sels, page sel = .timeout) → waitGo page sels = none := by
  intro sels
  induction sels with
  | nil => intro _; rfl
  | cons sel rest ih =>
    intro h
    simp only [waitGo, h sel (List.mem_cons_self _ _)]
    exact ih (fun s hs => h s (List.mem_cons_of_mem _ hs))

theorem waitGo_find (page : List Char → PollResult) :
    ∀ sels : List (List Char),
      (∀ sel ∈ sels, page sel ≠ .fault) →
      waitGo page sels = sels.find? (fun sel => page sel == .found) := by
  intro sels
  induction sels with
  | nil => intro _; rfl
  | cons sel rest ih =>
    intro h
    cases hp : page sel with
    | found =>
      simp only [waitGo, hp, List.find?_cons]
      rfl
    | timeout =>
      simp only [waitGo, hp, List.find?_cons]
      exact ih (fun s hs => h s (List.mem_cons_of_mem _ hs))
    | fault => exact absurd hp (h sel (List.mem_cons_self _ _))

theorem scrollGo_le (h : Nat → Nat) :
    ∀ (fuel k : Nat), scrollGo h k fuel ≤ fuel := by
  intro fuel
  induction fuel with
  | zero => intro k; exact le_refl 0
  | succ fuel ih =>
    intro k
    simp only [scrollGo]
    by_cases hg : scroll_to_load_more h k
    · rw [if_pos hg]
      have := ih (k + 1)
      omega
    · rw [if_neg hg]
      omega

theorem scrollGo_stop (h : Nat → Nat) :
    ∀ (i fuel k : Nat), i < fuel →
      (∀ j, j < i → scroll_to_load_more h (k + j) = true) →
      scroll_to_load_more h (k + i) = false →
      scrollGo h k fuel = i + 1 := by
  intro i
  induction i with
  | zero =>
    intro fuel k hif hgrow hstop
    cases fuel with
    | zero => omega
    | succ fuel =>
      simp only [scrollGo]
      rw [if_neg (by simpa using hstop)]
  | succ i ih =>
    intro fuel k hif hgrow hstop
    cases fuel with
    | zero => omega
    | succ fuel =>
      simp only [scrollGo]
      rw [if_pos (by simpa using hgrow 0 (Nat.succ_pos i))]
      have h1 : scrollGo h (k + 1) fuel = i + 1 := by
        apply ih fuel (k + 1) (by omega)
        · intro j hj
          have := hgrow (j + 1) (by omega)
          simpa [Nat.add_assoc, Nat.add_comm 1 j] using this
        · have heq : k + 1 + i = k + (i + 1) := by omega
          rw [heq]
          exact hstop
      omega

/-! Claim theorems. -/

/-- C1 (counterexample): the invariant as stated is false.  On the
markup "car cover ₹,," the degraded extractor emits a listing whose
price is Python None (the price pattern matched "₹,,", which contains
no digit, so extract_price returned None), not the sentinel and not a
digit string. -/
theorem C1_counterexample :
    extract_from_page_source "car cover ₹,,".toList =
      [Listing.mk "car cover ₹,,".toList none NA NA NA] ∧
    ∃ l, l ∈ extract_from_page_source "car cover ₹,,".toList ∧ l.price = none := by
  refine ⟨by decide, Listing.mk "car cover ₹,,".toList none NA NA NA, by decide, rfl⟩

/-- C1 (amended): every Listing has all five keys.  For FieldExtractor
output (given that a matched anchor's href is a trimmed string
containing "/item/", which CSS attribute-substring matching and the
driver guarantee), every field is the sentinel or a non-empty trimmed
string and the price string is digits-only.  For DegradedTextExtractor
output the title is a non-empty trimmed string, location, date and url
are the sentinel, and the price is either a non-empty digits-only
string or Python None (None occurring exactly when the matched price
text has no digit, as the counterexample shows). -/
theorem C1_invariant :
    (∀ (node : Node) (l : Listing),
      (∀ t h2, node url_selector = .found t h2 →
        substrB "/item/".toList h2 = true ∧ pyStrip h2 = h2) →
      extract_listing_data node = some l →
      goodStr l.title ∧
        (∃ p, l.price = some p ∧
          (p = NA ∨ (p ≠ [] ∧ (∀ c ∈ p, c.isDigit = true) ∧ pyStrip p = p))) ∧
        goodStr l.location ∧ goodStr l.date ∧ goodStr l.url) ∧
    (∀ (page_source : List Char) (l : Listing),
      l ∈ extract_from_page_source page_source →
      (l.title ≠ [] ∧ pyStrip l.title = l.title) ∧
      (l.price = none ∨ ∃ p, l.price = some p ∧ p ≠ [] ∧ ∀ c ∈ p, c.isDigit = true) ∧
      l.location = NA ∧ l.date = NA ∧ l.url = NA) := by
  constructor
  · exact fun node l hwf hext => extract_listing_data_good node l hwf hext
  · intro ps l hmem
    rw [extract_from_page_source_eq] at hmem
    obtain ⟨m, hm, hemit⟩ := List.mem_filterMap.mp hmem
    delta degradedEmit at hemit
    cases hts : reSearch title_pattern (contextOf ps m) with
    | some tm =>
      rw [hts] at hemit
      replace hemit : some (Listing.mk (pyStrip tm.text) (extract_price (some m.text))
        NA NA NA) = some l := hemit
      obtain rfl : Listing.mk (pyStrip tm.text) (extract_price (some m.text)) NA NA NA = l := by
        injection hemit
      obtain ⟨ch, t2, htm, hws⟩ := reSearch_title _ tm hts
      refine ⟨⟨?_, pyStrip_idem tm.text⟩, ?_, rfl, rfl, rfl⟩
      · show pyStrip tm.text ≠ []
        rw [htm]
        exact pyStrip_cons_ne_nil ch t2 hws
      · show extract_price (some m.text) = none ∨ _
        cases hp : extract_price (some m.text) with
        | none => exact Or.inl rfl
        | some p =>
          obtain ⟨hne, hdig⟩ := extract_price_some _ p hp
          exact Or.inr ⟨p, rfl, hne, hdig⟩
    | none =>
      rw [hts] at hemit
      replace hemit : (none : Option Listing) = some l := hemit
      cases hemit

/-- C1 (witness): the amended invariant applied to a concrete node on
which every selector misses, whose extraction yields the all-sentinel
listing. -/
theorem C1_invariant_witness :
    goodStr NA ∧
      (∃ p, (some NA : Option (List Char)) = some p ∧
        (p = NA ∨ (p ≠ [] ∧ (∀ c ∈ p, c.isDigit = true) ∧ pyStrip p = p))) ∧
      goodStr NA ∧ goodStr NA ∧ goodStr NA :=
  C1_invariant.1 (fun _ => FindResult.notFound)
    (Listing.mk NA (some NA) NA NA NA)
    (fun t h2 hf => FindResult.noConfusion hf)
    (by decide)

/-- C2: extract_price maps None and the empty string to None; otherwise
it strips the text, removes currency symbol, commas and whitespace, and
returns the digit characters of the cleaned text in order (the
concatenation of its maximal digit runs), or None when there is none;
with the three documented examples.  The function is a total pure
function, so it cannot raise or have side effects. -/
theorem C2_price_normalizer :
    extract_price none = none ∧
    extract_price (some "".toList) = none ∧
    (∀ s : List Char, extract_price (some s) =
      if (cleanPrice s).filter Char.isDigit = [] then none
      else some ((cleanPrice s).filter Char.isDigit)) ∧
    extract_price (some "₹ 12,500".toList) = some "12500".toList ∧
    extract_price (some "no digits".toList) = none :=
  ⟨rfl, rfl, extract_price_eq, by decide, by decide⟩

/-- C3: is_car_cover_listing returns true exactly when the lower-cased
title contains one of the six target substrings and none of the nine
exclusion substrings, and the two documented examples hold. -/
theorem C3_relevance_classifier :
    (∀ title_value : Option (List Char),
      is_car_cover_listing title_value = true ↔
        ((∃ kw ∈ car_cover_keywords, kw <:+: lowerStr (title_value.getD [])) ∧
         ∀ kw ∈ exclude_keywords, ¬ kw <:+: lowerStr (title_value.getD []))) ∧
    is_car_cover_listing (some "Premium Car Cover Waterproof".toList) = true ∧
    is_car_cover_listing (some "2BHK flat with car cover design curtains".toList) = false := by
  refine ⟨?_, by decide, by decide⟩
  intro tv
  simp only [is_car_cover_listing, Bool.and_eq_true, Bool.not_eq_true', List.any_eq_true,
    List.any_eq_false, substrB_iff, substrB_false_iff]

/-- C4: for every node whose accesses do not fault, FieldExtractor
resolves title, location and date to the trimmed text of the first
selector with non-empty text (sentinel when the chain is exhausted),
resolves price to the first non-null normalized candidate, and it
returns None only when some selector access faults. -/
theorem C4_field_extractor :
    (∀ node : Node, (∀ sel, node sel ≠ .fault) →
      extract_listing_data node = some
        (Listing.mk (firstChainText node title_selectors)
          (some (firstChainPrice node price_selectors))
          (firstChainText node location_selectors)
          (firstChainText node date_selectors)
          (urlField node))) ∧
    (∀ node : Node, extract_listing_data node = none →
      ∃ sel, node sel = .fault) := by
  constructor
  · exact extract_listing_data_eq
  · intro node hnone
    by_contra hno
    push_neg at hno
    rw [extract_listing_data_eq node hno] at hnone
    cases hnone

/-- C4 (witness): the chain description applied to a concrete node on
which every selector misses. -/
theorem C4_field_extractor_witness :
    extract_listing_data (fun _ => FindResult.notFound) = some
      (Listing.mk (firstChainText (fun _ => FindResult.notFound) title_selectors)
        (some (firstChainPrice (fun _ => FindResult.notFound) price_selectors))
        (firstChainText (fun _ => FindResult.notFound) location_selectors)
        (firstChainText (fun _ => FindResult.notFound) date_selectors)
        (urlField (fun _ => FindResult.notFound))) :=
  C4_field_extractor.1 (fun _ => FindResult.notFound)
    (fun _ h => FindResult.noConfusion h)

/-- C5: the degraded extractor emits exactly one listing per price
match whose clamped 200-character context window has a title match
(title, normalized price and sentinel fields as described by
degradedEmit), drops the others, and the underlying match list is
non-overlapping and ordered by position in the markup. -/
theorem C5_degraded_semantics :
    (∀ page_source : List Char,
      extract_from_page_source page_source =
        (finditer price_pattern page_source).filterMap (degradedEmit page_source)) ∧
    (∀ page_source : List Char,
      List.Chain' (fun a b => a.stop ≤ b.start ∧ a.start < b.start)
        (finditer price_pattern page_source)) :=
  ⟨extract_from_page_source_eq, fun ps => finditer_chain price_pattern ps⟩

/-- C6: on markup containing the span "₹ 899 Waterproof Car Cover for
Sedan" between tag boundaries, the degraded extractor emits exactly one
listing; its price is "899" and its title contains "Car Cover for
Sedan". -/
theorem C6_scenario :
    ∃ l : Listing,
      extract_from_page_source
        "<div>₹ 899 Waterproof Car Cover for Sedan</div>".toList = [l] ∧
      l.price = some "899".toList ∧
      substrB "Car Cover for Sedan".toList l.title = true := by
  refine ⟨Listing.mk "Car Cover for Sedan".toList (some "899".toList) NA NA NA,
    by decide, rfl, by decide⟩

/-- C7: wait_for_listings tries its six selectors in their listed
order; under no driver fault it returns the first selector that
matches, and when every selector times out it returns None after the
whole traversal (the model is a total function, so nothing is thrown to
the caller). -/
theorem C7_listing_locator :
    wait_selectors.length = 6 ∧
    (∀ page : List Char → PollResult,
      (∀ sel ∈ wait_selectors, page sel = .timeout) →
      wait_for_listings page = none) ∧
    (∀ page : List Char → PollResult,
      (∀ sel ∈ wait_selectors, page sel ≠ .fault) →
      wait_for_listings page = wait_selectors.find? (fun sel => page sel == .found)) := by
  refine ⟨rfl, ?_, ?_⟩
  · exact fun page h => waitGo_timeout page wait_selectors h
  · exact fun page h => waitGo_find page wait_selectors h

/-- C7 (witness): a page on which all six selectors time out yields
None. -/
theorem C7_listing_locator_witness :
    wait_for_listings (fun _ => PollResult.timeout) = none :=
  C7_listing_locator.2.1 (fun _ => PollResult.timeout) (fun _ _ => rfl)

/-- C8: the scroll loop performs at most 3 scroll-and-settle cycles (it
is a total function, hence terminating), stops right after the first
scroll that produces no height growth, and on a page of constant height
performs exactly one scroll. -/
theorem C8_scroll_loop :
    (∀ h : Nat → Nat, scrollCalls h ≤ max_scrolls) ∧
    (∀ (h : Nat → Nat) (i : Nat), i < max_scrolls →
      (∀ j, j < i → scroll_to_load_more h j = true) →
      scroll_to_load_more h i = false →
      scrollCalls h = i + 1) ∧
    (∀ h : Nat → Nat, (∀ k, h k = h 0) → scrollCalls h = 1) := by
  refine ⟨?_, ?_, ?_⟩
  · exact fun h => scrollGo_le h max_scrolls 0
  · intro h i hi hgrow hstop
    exact scrollGo_stop h i max_scrolls 0 hi (by simpa using hgrow) (by simpa using hstop)
  · intro h hconst
    have hstop : scroll_to_load_more h 0 = false := by
      simp [scroll_to_load_more, hconst 1]
    have hres := scrollGo_stop h 0 max_scrolls 0 (by decide)
      (fun j hj => absurd hj (Nat.not_lt_zero j)) (by simpa using hstop)
    simpa using hres

/-- C8 (witness): the scroll bound and the one-scroll behavior at the
constant-height page of height 5. -/
theorem C8_scroll_loop_witness :
    scrollCalls (fun _ => 5) = 1 ∧ scrollCalls (fun _ => 5) ≤ max_scrolls :=
  ⟨C8_scroll_loop.2.2 (fun _ => 5) (fun _ => rfl), C8_scroll_loop.1 (fun _ => 5)⟩

/-- C9: scrape_listings is a total function of its collaborators (no
exception escapes): a setup failure, a navigation fault, a fault while
saving the page source in the degraded branch, or a fault while
enumerating the containers each yield the empty list; the degraded
branch returns the degraded extraction; and otherwise the result is the
per-element filterMap, so a fault inside one listing extraction only
drops that listing while the batch continues. -/
theorem C9_fault_containment (w : World) :
    (w.setup_ok = false → scrape_listings w = []) ∧
    (w.nav_fault = true → scrape_listings w = []) ∧
    (w.setup_ok = true → w.nav_fault = false →
      wait_for_listings w.poll = none → w.save_fault = true →
      scrape_listings w = []) ∧
    (w.setup_ok = true → w.nav_fault = false →
      wait_for_listings w.poll = none → w.save_fault = false →
      scrape_listings w = extract_from_page_source w.page_source) ∧
    (∀ sel, w.setup_ok = true → w.nav_fault = false →
      wait_for_listings w.poll = some sel → w.elements_fault = true →
      scrape_listings w = []) ∧
    (∀ sel, w.setup_ok = true → w.nav_fault = false →
      wait_for_listings w.poll = some sel → w.elements_fault = false →
      scrape_listings w = (w.elements sel).filterMap relevantExtract) := by
  refine ⟨?_, ?_, ?_, ?_, ?_, ?_⟩
  · intro hs
    simp [scrape_listings, hs]
  · intro hn
    cases hs : w.setup_ok <;> simp [scrape_listings, hs, hn]
  · intro hs hn hw hsv
    simp [scrape_listings, hs, hn, hw, hsv]
  · intro hs hn hw hsv
    simp [scrape_listings, hs, hn, hw, hsv]
  · intro sel hs hn hw he
    simp [scrape_listings, hs, hn, hw, he]
  · intro sel hs hn hw he
    simp only [scrape_listings, hs, hn, hw, he]
    simp only [Bool.not_true, Bool.false_eq_true, if_false]
    exact (scrape_foldl (w.elements sel) []).trans (List.nil_append _)

/-- C9 (witness): a session whose navigation faults returns the empty
list. -/
theorem C9_fault_containment_witness :
    scrape_listings
      (World.mk true true (fun _ => PollResult.timeout) [] false (fun _ => 0) false
        (fun _ => [])) = [] :=
  (C9_fault_containment _).2.1 rfl

/-- C10: is_car_cover_listing is total and returns false on a record
with no title key, on the sentinel title and on the empty title, and a
title containing no target keyword is never classified relevant. -/
theorem C10_classifier_totality :
    is_car_cover_listing none = false ∧
    is_car_cover_listing (some NA) = false ∧
    is_car_cover_listing (some []) = false ∧
    (∀ t : List Char,
      (∀ kw ∈ car_cover_keywords, ¬ kw <:+: lowerStr t) →
      is_car_cover_listing (some t) = false) := by
  refine ⟨by decide, by decide, by decide, ?_⟩
  intro t ht
  simp only [is_car_cover_listing, Option.getD_some]
  have hany : car_cover_keywords.any (fun kw => substrB kw (lowerStr t)) = false := by
    rw [List.any_eq_false]
    intro kw hkw
    intro hsb
    exact ht kw hkw ((substrB_iff _ _).mp hsb)
  rw [hany]
  simp

/-- C10 (witness): a concrete title without any target keyword is
rejected. -/
theorem C10_classifier_totality_witness :
    is_car_cover_listing (some "hello world".toList) = false :=
  C10_classifier_totality.2.2.2 "hello world".toList (by decide)
